import Mathlib

/-!
Shallow embedding of `python/ray/dataframe/utils.py` (the partition
coordination layer of the dataframe module), together with proofs of the
spec's testable properties about it.

Modelling conventions:
* a pandas `DataFrame` is a row-major list of rows plus its row-label list
  (`index`) and column-label list (`columns`); labels are natural numbers
  (`pandas.RangeIndex(0, n)` becomes `List.range n`);
* Python slicing `l[a:b]` becomes `(l.take b).drop a`;
* an `OrderedDict` is an association list, head = oldest insertion;
* a dispatched remote call is described by the argument tuple it was
  dispatched with (the function itself is not part of the description);
* Python exceptions become `Except` values.
-/

set_option autoImplicit false

namespace RayDF

universe u

variable {α : Type u}

/-- Python slice `l[a:b]` (indices `a, a+1, …, b-1`, clamped to the list). -/
def pySlice (l : List α) (a b : Nat) : List α :=
  (l.take b).drop a

/-- `pandas.RangeIndex(0, n)`: the labels `0, 1, …, n-1`. -/
def rangeIndex (n : Nat) : List Nat :=
  List.range n

/-- A pandas `DataFrame`: row-major cell data, row labels, column labels. -/
structure DF (α : Type u) where
  data : List (List α)
  index : List Nat
  columns : List Nat
deriving DecidableEq, Repr

namespace DF

/-- `len(df)`: the number of rows. -/
def len (df : DF α) : Nat := df.data.length

/-- `len(df.columns)`: the number of column labels. -/
def width (df : DF α) : Nat := df.columns.length

/-- `df[:n]` / `df.iloc[:n, :]`: keep the first `n` rows (and their labels). -/
def headRows (df : DF α) (n : Nat) : DF α :=
  ⟨df.data.take n, df.index.take n, df.columns⟩

/-- `df[n:]` / `df.iloc[n:, :]`: drop the first `n` rows (and their labels). -/
def dropRows (df : DF α) (n : Nat) : DF α :=
  ⟨df.data.drop n, df.index.drop n, df.columns⟩

/-- `df.iloc[a:b, :]`: positional row slice. -/
def ilocRows (df : DF α) (a b : Nat) : DF α :=
  ⟨pySlice df.data a b, pySlice df.index a b, df.columns⟩

/-- `df.iloc[:, a:b]`: positional column slice (every row is cut to the
column range, the column labels are cut the same way, rows keep labels). -/
def ilocCols (df : DF α) (a b : Nat) : DF α :=
  ⟨df.data.map (fun r => pySlice r a b), df.index, pySlice df.columns a b⟩

/-- `df.reset_index(drop=True)`: replace the row labels by a dense range. -/
def resetIndex (df : DF α) : DF α :=
  ⟨df.data, rangeIndex df.data.length, df.columns⟩

/-- `df.columns = pandas.RangeIndex(0, len(df.columns))`. -/
def setRangeColumns (df : DF α) : DF α :=
  ⟨df.data, df.index, rangeIndex df.columns.length⟩

/-- `df.index = idx`: overwrite the row labels. -/
def setIndex (df : DF α) (idx : List Nat) : DF α :=
  ⟨df.data, idx, df.columns⟩

end DF

/-! ## LRUCache (utils.py lines 17-47)

`collections.OrderedDict` is modelled as an association list whose head is
the oldest (least recently used) entry; `self.cache[key] = value` on an
absent key appends at the tail, `popitem(last=False)` removes the head. -/

section LRU

variable {K : Type} {V : Type} [DecidableEq K]

/-- First value stored under `k`, if any (dict lookup). -/
def assocLookup (c : List (K × V)) (k : K) : Option V :=
  match c with
  | [] => none
  | p :: rest => if p.1 = k then some p.2 else assocLookup rest k

/-- Remove the first entry stored under `k` (`OrderedDict.pop(k)` removes
the unique entry for `k`; keys are unique in a dict). -/
def assocErase (c : List (K × V)) (k : K) : List (K × V) :=
  match c with
  | [] => []
  | p :: rest => if p.1 = k then rest else p :: assocErase rest k

structure LRUCache (K V : Type) where
  capacity : Nat
  cache : List (K × V)

/-- `LRUCache(capacity)`: empty cache. -/
def LRUCache.empty (K V : Type) (capacity : Nat) : LRUCache K V :=
  ⟨capacity, []⟩

/-- `key in cache` (`__contains__`). -/
def LRUCache.contains (c : LRUCache K V) (k : K) : Bool :=
  (assocLookup c.cache k).isSome

/-- `cache[key]` (`__getitem__`): pop the entry and re-insert it at the back
of the queue; `none` models the `KeyError` raised on an absent key. -/
def LRUCache.get (c : LRUCache K V) (k : K) : Option (V × LRUCache K V) :=
  match assocLookup c.cache k with
  | none => none
  | some v => some (v, ⟨c.capacity, assocErase c.cache k ++ [(k, v)]⟩)

/-- `cache[key] = value` (`__setitem__`): drop an existing entry for `key`,
evict the head if still at or above capacity, then append `(key, value)`.
(`popitem(last=False)` on an empty dict raises in Python; that is reachable
only with capacity 0, where this model just drops nothing.) -/
def LRUCache.put (c : LRUCache K V) (k : K) (v : V) : LRUCache K V :=
  let c1 := if (assocLookup c.cache k).isSome then assocErase c.cache k
            else c.cache
  let c2 := if c.capacity ≤ c1.length then c1.drop 1 else c1
  ⟨c.capacity, c2 ++ [(k, v)]⟩

/-! ## memoize (utils.py lines 50-103)

The memoizer's state is its `LRUCache` plus, for the proofs, the log of the
argument tuples that were actually dispatched to the wrapped remote
function (one log entry per call of `self.old_remote_func`). -/

/-- `_MEMOIZER_CAPACITY = 1000`. -/
def MEMOIZER_CAPACITY : Nat := 1000

structure Memo (K V : Type) where
  cache : LRUCache K V
  dispatchLog : List K

/-- `memoize(f)`: fresh wrapper with an empty capacity-1000 cache. -/
def Memo.init (K V : Type) : Memo K V :=
  ⟨LRUCache.empty K V MEMOIZER_CAPACITY, []⟩

/-- `memoize.remote(*args)`: on a hit return the cached handle (the lookup
re-inserts the entry at the back); on a miss dispatch `old_remote_func`,
cache and return the fresh handle. `f` is the underlying dispatch. -/
def Memo.submit (f : K → V) (m : Memo K V) (args : K) : V × Memo K V :=
  match m.cache.get args with
  | some (v, c') => (v, ⟨c', m.dispatchLog⟩)
  | none =>
      let result := f args
      (result, ⟨m.cache.put args result, m.dispatchLog ++ [args]⟩)

end LRU

/-! ## _deploy_func / _map_partitions (utils.py lines 284-321)

The objects Python passes around here are partitions and extra arguments,
modelled as opaque atoms; a whole Python list of them can itself be passed
as one argument. A dispatched remote computation is described by the tuple
of arguments `func` ends up applied to. -/

inductive PyObj where
  | atom : Nat → PyObj
  | list : List Nat → PyObj
deriving DecidableEq, Repr

/-- `_deploy_func(func, dataframe, *args)` applies `func(dataframe)` when
`args` is empty and `func(dataframe, *args)` otherwise; either way the
argument tuple of the call is `dataframe :: args`. -/
def deployFuncArgs (dataframe : PyObj) (args : List PyObj) : List PyObj :=
  dataframe :: args

/-- The `len(argslists) >= 2` branch: `zip(partitions, *argslists)` gives,
for each position `i`, the tuple `partitions[i], argslists[0][i], …`
(the assertion guarantees all the lists have the partitions' length, so the
`getD` defaults are never used). -/
def zipCalls (ps : List Nat) (argslists : List (List Nat)) :
    List (List PyObj) :=
  (List.range ps.length).map fun i =>
    deployFuncArgs (PyObj.atom (ps.getD i 0))
      (argslists.map fun xs => PyObj.atom (xs.getD i 0))

/-- `_map_partitions(func, partitions, *argslists)`: the list of argument
tuples dispatched, in order. `none` models the failed assertion on
mismatched argument-list lengths. (The `partitions is None` early return of
the source is not modelled; the claims are about actual partition lists.) -/
def mapPartitions (ps : List Nat) (argslists : List (List Nat)) :
    Option (List (List PyObj)) :=
  match argslists with
  | [] => some (ps.map fun p => deployFuncArgs (PyObj.atom p) [])
  | [xs] => some (ps.map fun p => deployFuncArgs (PyObj.atom p) [PyObj.list xs])
  | _ =>
      if argslists.all (fun xs => xs.length = ps.length) then
        some (zipCalls ps argslists)
      else
        none

/-! ## _partition_pandas_dataframe (utils.py lines 158-196) and
to_pandas (lines 219-229) -/

/-- `len(df) // n if len(df) % n == 0 else len(df) // n + 1`, i.e.
`ceil(t / n)` for `n ≥ 1`. -/
def ceilDiv (t n : Nat) : Nat :=
  if t % n = 0 then t / n else t / n + 1

/-- The `while len(temp_df) > row_chunksize` loop: slice off the first
`chunk` rows, reset the slice's row labels and column labels to dense
ranges, recurse on the rest; the final remainder gets the same relabeling.
Termination is encoded with a fuel parameter; with `1 ≤ chunk` a fuel of
`len(df)` provably never runs out (each pass removes at least one row), so
the fuel-exhausted branch is reachable only where the source itself would
loop forever (chunk size 0 on a non-empty frame, unreachable from a
partition count `≥ 1`). -/
def partitionLoop (fuel : Nat) (df : DF α) (chunk : Nat) : List (DF α) :=
  match fuel with
  | 0 => [df.resetIndex.setRangeColumns]
  | fuel + 1 =>
      if chunk < df.len then
        (df.headRows chunk).resetIndex.setRangeColumns ::
          partitionLoop fuel (df.dropRows chunk) chunk
      else
        [df.resetIndex.setRangeColumns]

/-- `_partition_pandas_dataframe(df, num_partitions)`: compute the chunk
size from the target partition count, then run the slicing loop. -/
def partitionPandasDataframe (df : DF α) (numPartitions : Nat) : List (DF α) :=
  partitionLoop df.len df (ceilDiv df.len numPartitions)

/-- `pandas.concat(parts)` followed by `pandas_df.index = index;
pandas_df.columns = columns`, as done by `to_pandas`: the partitions' rows
are concatenated in order and the original labels are reattached. (The
partitions produced by the partitioner all carry identical dense column
labels, so `concat`'s column alignment is the identity here.) -/
def toPandas (parts : List (DF α)) (index columns : List Nat) : DF α :=
  ⟨(parts.map DF.data).flatten, index, columns⟩

/-! ## create_blocks_helper (utils.py lines 382-403) -/

/-- `df.shape`: (number of rows, number of columns). -/
def DF.shape (df : DF α) : Nat × Nat := (df.data.length, df.columns.length)

/-- `create_blocks_helper(df, npartitions, axis)`. With `npartitions == 1`
the frame itself is returned, not a list (`Sum.inl`). Otherwise
`block_size = ceil(df.shape[axis ^ 1] / npartitions)` and the frame is cut
into exactly `npartitions` positional slices — columns when `axis == 0`,
rows when `axis == 1` — each slice getting dense column labels and a reset
row index. -/
def createBlocksHelper (df : DF α) (npartitions axis : Nat) :
    Sum (DF α) (List (DF α)) :=
  if npartitions = 1 then Sum.inl df
  else
    let extent := if axis = 0 then df.shape.2 else df.shape.1
    let blockSize := ceilDiv extent npartitions
    Sum.inr <| (List.range npartitions).map fun i =>
      let block :=
        if axis = 0 then df.ilocCols (i * blockSize) ((i + 1) * blockSize)
        else df.ilocRows (i * blockSize) ((i + 1) * blockSize)
      block.setRangeColumns.resetIndex

/-! ## _build_coord_df (utils.py lines 342-351) -/

/-- The coordinate dataframe: rows of
`(partition, index_within_partition)` pairs, labelled by the supplied
global index. `coords = None` (all lengths zero) is kept as `none`. -/
structure CoordDF where
  coords : Option (List (Nat × Nat))
  index : List Nat
deriving DecidableEq, Repr

/-- `_build_coord_df(lengths, index)`: keep the positive lengths; for the
`i`-th remaining length `l`, `np.column_stack((np.full(l, i),
np.arange(l)))` is the list pairing `l` copies of `i` with `0, …, l-1`;
`np.vstack` concatenates these blocks in order. -/
def buildCoordDF (lengths : List Nat) (index : List Nat) : CoordDF :=
  let filteredLengths := lengths.filter (fun x => 0 < x)
  let coords :=
    if 0 < filteredLengths.length then
      some ((filteredLengths.enum.map
        (fun p => (List.replicate p.2 p.1).zip (List.range p.2))).flatten)
    else
      none
  ⟨coords, index⟩

/-! ## _match_partitioning (utils.py lines 522-558) -/

/-- An empty `pandas.DataFrame(columns=columns)`. -/
def emptyWithColumns (columns : List Nat) : DF α :=
  ⟨[], [], columns⟩

/-- The `for length in lengths` loop of `_match_partitioning`: if the
remaining source is empty, emit an empty frame carrying the saved column
labels; otherwise emit the first `length` rows and continue on the rest. -/
def matchLoop (columns : List Nat) (cp : DF α) (lengths : List Nat) :
    List (DF α) :=
  match lengths with
  | [] => []
  | length :: rest =>
      if cp.len = 0 then
        emptyWithColumns columns :: matchLoop columns cp rest
      else
        cp.ilocRows 0 length :: matchLoop columns (cp.ilocRows length cp.len) rest

/-- `_match_partitioning(column_partition, lengths, index)`: remember the
column labels, push the shared index down onto the partition, then slice
sequentially. (`column_partition.iloc[length:, :]` is `ilocRows length
cp.len`: drop the first `length` rows.) -/
def matchPartitioning (cp : DF α) (lengths : List Nat) (index : List Nat) :
    List (DF α) :=
  matchLoop cp.columns (cp.setIndex index) lengths

/-! ## _get_lengths / _get_widths (utils.py lines 126-155)

A partition handed to these helpers either holds a real frame or a
degenerate non-tabular value (a scalar summary statistic). On a scalar,
`len(df)` raises `TypeError`, but `len(df.columns)` fails earlier: the
attribute access `df.columns` raises `AttributeError`. The helpers catch
only `TypeError`. -/

inductive PyErr where
  | typeError
  | attributeError
deriving DecidableEq, Repr

inductive PyPart (α : Type u) where
  | table : DF α → PyPart α
  | scalar : α → PyPart α

/-- `len(df)`: row count of a frame; `TypeError` on a scalar (calling
`len` on a non-sized value is a `TypeError` in Python). -/
def pyLen : PyPart α → Except PyErr Nat
  | .table df => .ok df.len
  | .scalar _ => .error .typeError

/-- `len(df.columns)`: column count of a frame. On a scalar the attribute
access `df.columns` itself fails, raising `AttributeError` — not the
`TypeError` that `len` would raise. -/
def pyColsLen : PyPart α → Except PyErr Nat
  | .table df => .ok df.width
  | .scalar _ => .error .attributeError

/-- `try: … except TypeError: return 0` — only a `TypeError` is swallowed;
every other exception propagates. -/
def catchTypeError (x : Except PyErr Nat) : Except PyErr Nat :=
  match x with
  | .error .typeError => .ok 0
  | other => other

/-- `_get_lengths(df)`. -/
def getLengths (p : PyPart α) : Except PyErr Nat :=
  catchTypeError (pyLen p)

/-- `_get_widths(df)`. -/
def getWidths (p : PyPart α) : Except PyErr Nat :=
  catchTypeError (pyColsLen p)

/-! ## Concrete frames used by the witnesses and counterexamples -/

/-- A 10-row, 1-column frame with dense labels. -/
def df10 : DF Nat := ⟨(List.range 10).map (fun i => [i]), List.range 10, [0]⟩

/-- A 5-row, 1-column frame with dense labels. -/
def df5 : DF Nat := ⟨(List.range 5).map (fun i => [i]), List.range 5, [0]⟩

/-- A 7-row, 2-column frame whose column labels are `[3, 4]`. -/
def cp7 : DF Nat := ⟨(List.range 7).map (fun i => [i, i + 100]), List.range 7, [3, 4]⟩

/-- A 1-row frame with non-dense labels (row label 5, column label 7). -/
def dfLabelled : DF Nat := ⟨[[0]], [5], [7]⟩

/-- Length of the `i`-th block cut by `create_blocks_helper` from a total
extent `t` with block size `bs`: the part of `[i*bs, (i+1)*bs)` that lies
inside `[0, t)`. -/
def sliceLen (t bs i : Nat) : Nat :=
  min ((i + 1) * bs) t - i * bs

/-- View the result of `create_blocks_helper` as a block list (the
`npartitions == 1` branch returns the frame itself, a one-block split). -/
def blocksOf (r : Sum (DF α) (List (DF α))) : List (DF α) :=
  match r with
  | Sum.inl df => [df]
  | Sum.inr l => l

/-! ## Basic facts about the frame operations -/

@[simp] theorem DF.len_resetIndex (df : DF α) : df.resetIndex.len = df.len := rfl

@[simp] theorem DF.len_setRangeColumns (df : DF α) :
    df.setRangeColumns.len = df.len := rfl

@[simp] theorem DF.data_resetIndex (df : DF α) : df.resetIndex.data = df.data := rfl

@[simp] theorem DF.data_setRangeColumns (df : DF α) :
    df.setRangeColumns.data = df.data := rfl

@[simp] theorem DF.columns_resetIndex (df : DF α) :
    df.resetIndex.columns = df.columns := rfl

@[simp] theorem DF.len_headRows (df : DF α) (n : Nat) :
    (df.headRows n).len = min n df.len := by
  simp [DF.headRows, DF.len]

@[simp] theorem DF.len_dropRows (df : DF α) (n : Nat) :
    (df.dropRows n).len = df.len - n := by
  simp [DF.dropRows, DF.len]

@[simp] theorem DF.data_headRows (df : DF α) (n : Nat) :
    (df.headRows n).data = df.data.take n := rfl

@[simp] theorem DF.data_dropRows (df : DF α) (n : Nat) :
    (df.dropRows n).data = df.data.drop n := rfl

/-! ## Claim C1: _map_partitions with one extra argument list -/

/-- C1 (amended): with exactly one extra argument list `xs`,
`_map_partitions` dispatches one call per partition, and the `i`-th
dispatched computation is `func(ps[i], xs)` — the whole extra list is
passed as the single second argument of every call; positional pairing
only happens with two or more extra argument lists. -/
theorem C1_one_arglist_broadcasts (ps xs : List Nat) (i : Nat)
    (hi : i < ps.length) :
    ∃ calls, mapPartitions ps [xs] = some calls ∧
      calls.length = ps.length ∧
      calls.getD i [] = [PyObj.atom (ps.getD i 0), PyObj.list xs] := by
  refine ⟨ps.map fun p => deployFuncArgs (PyObj.atom p) [PyObj.list xs],
    rfl, by simp, ?_⟩
  simp [List.getD, List.getElem?_map, deployFuncArgs,
    List.getElem?_eq_getElem hi]

/-- Witness for C1: two partitions, one extra argument list of two values;
the first dispatched call receives the whole list `[10, 11]`. -/
theorem C1_one_arglist_broadcasts_witness :
    (0 : Nat) < ([0, 1] : List Nat).length ∧
    ∃ calls, mapPartitions [0, 1] [[10, 11]] = some calls ∧
      calls.length = ([0, 1] : List Nat).length ∧
      calls.getD 0 [] =
        [PyObj.atom (([0, 1] : List Nat).getD 0 0), PyObj.list [10, 11]] :=
  ⟨by decide, C1_one_arglist_broadcasts [0, 1] [10, 11] 0 (by decide)⟩

/-- C1 counterexample: for partitions `[0, 1]` and the single extra list
`[10, 11]`, the dispatched calls are `func(0, [10, 11])` and
`func(1, [10, 11])`, not the positionally paired `func(0, 10)`,
`func(1, 11)` the claim states. -/
theorem C1_counterexample :
    mapPartitions [0, 1] [[10, 11]] =
      some [[PyObj.atom 0, PyObj.list [10, 11]],
            [PyObj.atom 1, PyObj.list [10, 11]]] ∧
    mapPartitions [0, 1] [[10, 11]] ≠
      some [[PyObj.atom 0, PyObj.atom 10],
            [PyObj.atom 1, PyObj.atom 11]] := by
  decide

/-! ## Claim C8: target_partition_count == 1 -/

/-- C8 (amended): `create_blocks_helper` with `npartitions == 1` returns
the table itself, unsplit, with no slicing and no relabeling; but
`_partition_pandas_dataframe` with `num_partitions == 1`, while emitting
the table as a single unsliced partition, resets its row index and its
column labels to dense integer ranges. -/
theorem C8_single_partition (df : DF α) (axis : Nat) :
    createBlocksHelper df 1 axis = Sum.inl df ∧
    partitionPandasDataframe df 1 = [df.resetIndex.setRangeColumns] := by
  constructor
  · simp [createBlocksHelper]
  · have hchunk : ceilDiv df.len 1 = df.len := by
      simp [ceilDiv, Nat.mod_one, Nat.div_one]
    rw [partitionPandasDataframe, hchunk]
    cases hlen : df.len with
    | zero => rfl
    | succ n => simp [partitionLoop, hlen]

/-- C8 counterexample: on a 1-row table with row label 5 and column label
7, `_partition_pandas_dataframe` with `num_partitions == 1` relabels both
axes to 0, so the claim's "no reindexing of row or column identifiers
occurs" is false for the row partitioner. -/
theorem C8_counterexample :
    partitionPandasDataframe dfLabelled 1 =
      [(⟨[[0]], [0], [0]⟩ : DF Nat)] ∧
    (⟨[[0]], [0], [0]⟩ : DF Nat) ≠ dfLabelled := by
  decide

/-! ## Claim C9: degenerate partitions measure as 0 -/

/-- C9 (code bug): `_get_lengths` on a degenerate scalar partition catches
the `TypeError` raised by `len(scalar)` and returns 0, so length
measurement is total over any partition sequence. But `_get_widths`
evaluates `len(df.columns)`, and on a scalar the attribute access
`df.columns` raises `AttributeError`, which its `except TypeError:` does
not catch — the failure propagates, contradicting the helper's own
docstring ("If the attempt fails, returns 0") and refuting the claim's
totality of width measurement over any partition sequence. -/
theorem C9_widths_propagate_on_scalar (a : α) (df : DF α)
    (ps : List (PyPart α)) :
    getLengths (PyPart.scalar a) = .ok 0 ∧
    getLengths (PyPart.table df) = .ok df.len ∧
    getWidths (PyPart.table df) = .ok df.width ∧
    (∀ q ∈ ps, ∃ n, getLengths q = .ok n) ∧
    getWidths (PyPart.scalar a) = .error .attributeError ∧
    getWidths (PyPart.scalar (3 : Nat)) ≠ .ok 0 := by
  refine ⟨rfl, rfl, rfl, ?_, rfl, fun h => Except.noConfusion h⟩
  intro q _
  cases q with
  | table df' => exact ⟨df'.len, rfl⟩
  | scalar a' => exact ⟨0, rfl⟩

/-! ## Claim C3: split / concat round trip -/

/-- Concatenating the data of the partitions emitted by the slicing loop,
in order, gives back exactly the original data. -/
theorem partitionLoop_flatten_data (fuel : Nat) (df : DF α) (chunk : Nat) :
    (((partitionLoop fuel df chunk).map DF.data).flatten) = df.data := by
  induction fuel generalizing df with
  | zero => simp [partitionLoop]
  | succ fuel ih =>
      rw [partitionLoop]
      split
      · simp [ih]
      · simp

/-- C3: for every frame and every partition count `N ≥ 1`, splitting into
row partitions with `_partition_pandas_dataframe` and gluing them back with
`to_pandas` (concatenation in order, then reattaching the original row and
column labels) reproduces the original frame exactly — values, labels and
shape. -/
theorem C3_split_concat_roundtrip (df : DF α) (N : Nat) (hN : 1 ≤ N) :
    toPandas (partitionPandasDataframe df N) df.index df.columns = df := by
  rw [toPandas, partitionPandasDataframe, partitionLoop_flatten_data]

/-- Witness for C3: the 10-row frame split into 3 partitions and
reassembled is itself. -/
theorem C3_split_concat_roundtrip_witness :
    (1 : Nat) ≤ 3 ∧
    toPandas (partitionPandasDataframe df10 3) df10.index df10.columns = df10 :=
  ⟨by decide, C3_split_concat_roundtrip df10 3 (by decide)⟩

/-! ## Claim C2: partition lengths -/

theorem ceilDiv_pos (t n : Nat) (ht : 0 < t) : 0 < ceilDiv t n := by
  unfold ceilDiv
  split
  · rename_i h
    rcases Nat.eq_zero_or_pos n with hn | hn
    · subst hn; rw [Nat.mod_zero] at h; omega
    · exact Nat.div_pos (Nat.le_of_dvd ht (Nat.dvd_of_mod_eq_zero h)) hn
  · exact Nat.succ_pos _

theorem le_mul_ceilDiv (t n : Nat) (hn : 1 ≤ n) : t ≤ n * ceilDiv t n := by
  unfold ceilDiv
  have hmod : t % n < n := Nat.mod_lt t (by omega)
  split
  · rename_i h
    rw [Nat.mul_div_cancel' (Nat.dvd_of_mod_eq_zero h)]
  · calc t = n * (t / n) + t % n := (Nat.div_add_mod t n).symm
      _ ≤ n * (t / n) + n := Nat.add_le_add_left (Nat.le_of_lt hmod) _
      _ = n * (t / n + 1) := (Nat.mul_succ n (t / n)).symm

/-- The lengths of the loop's partitions always sum to the frame's length. -/
theorem partitionLoop_len_sum (fuel : Nat) (df : DF α) (chunk : Nat) :
    ((partitionLoop fuel df chunk).map DF.len).sum = df.len := by
  induction fuel generalizing df with
  | zero => simp [partitionLoop]
  | succ fuel ih =>
      rw [partitionLoop]
      split
      · rename_i h
        simp [ih]
        omega
      · simp

/-- With a positive chunk size and enough fuel (`len ≤ fuel + 1`), every
partition the loop emits has at most `chunk` rows. -/
theorem partitionLoop_len_le (fuel : Nat) (df : DF α) (chunk : Nat)
    (hc : 1 ≤ chunk) (hf : df.len ≤ fuel + 1) :
    ∀ l ∈ (partitionLoop fuel df chunk).map DF.len, l ≤ chunk := by
  induction fuel generalizing df with
  | zero =>
      simp [partitionLoop]
      omega
  | succ fuel ih =>
      rw [partitionLoop]
      split
      · rename_i h
        intro l hl
        simp at hl
        rcases hl with h1 | h2
        · omega
        · exact ih (df.dropRows chunk) (by simp; omega) l (by simpa using h2)
      · rename_i h
        simp
        omega

/-- Every partition the loop emits other than the last has exactly `chunk`
rows. -/
theorem partitionLoop_len_full (fuel : Nat) (df : DF α) (chunk : Nat) :
    ∀ i, i + 1 < (partitionLoop fuel df chunk).length →
      ((partitionLoop fuel df chunk).map DF.len).getD i 0 = chunk := by
  induction fuel generalizing df with
  | zero =>
      intro i hi
      simp [partitionLoop] at hi
  | succ fuel ih =>
      intro i hi
      rw [partitionLoop] at hi ⊢
      by_cases h : chunk < df.len
      · rw [if_pos h] at hi ⊢
        cases i with
        | zero =>
            simp
            omega
        | succ i =>
            simp only [List.map_cons, List.getD_cons_succ]
            exact ih (df.dropRows chunk) i (by simpa using hi)
      · rw [if_neg h] at hi
        simp at hi

theorem getD_map_range {β : Type u} (f : Nat → β) (n i : Nat) (d : β)
    (hi : i < n) : (((List.range n).map f).getD i d) = f i := by
  simp [List.getD, List.getElem?_map, List.getElem?_range, hi]

theorem getD_map_range_ge {β : Type u} (f : Nat → β) (n i : Nat) (d : β)
    (hi : n ≤ i) : (((List.range n).map f).getD i d) = d := by
  have h : ((List.range n).map f).length ≤ i := by simpa using hi
  simp [List.getD, List.getElem?_eq_none h]

theorem sliceLen_le (t bs i : Nat) : sliceLen t bs i ≤ bs := by
  have h2 : (i + 1) * bs = i * bs + bs := Nat.succ_mul i bs
  unfold sliceLen
  omega

theorem sum_sliceLen (t bs n : Nat) :
    ((List.range n).map (sliceLen t bs)).sum = min (n * bs) t := by
  induction n with
  | zero => simp
  | succ n ih =>
      rw [List.range_succ, List.map_append, List.sum_append]
      simp [ih, sliceLen]
      have h2 : (n + 1) * bs = n * bs + bs := Nat.succ_mul n bs
      omega

theorem sliceLen_full (t bs i j : Nat) (hij : i < j)
    (hj : sliceLen t bs j ≠ 0) : sliceLen t bs i = bs := by
  unfold sliceLen at *
  have h1 : (i + 1) * bs ≤ j * bs := Nat.mul_le_mul_right bs (by omega)
  have h2 : (i + 1) * bs = i * bs + bs := Nat.succ_mul i bs
  have h3 : j * bs ≤ (j + 1) * bs := Nat.mul_le_mul_right bs (by omega)
  omega

/-- For `npartitions ≠ 1`, splitting along the rows (`axis == 1`) emits
exactly `npartitions` blocks whose row counts are the clamped slice
lengths. -/
theorem createBlocks_map_len (df : DF α) (np : Nat) (hnp : np ≠ 1) :
    ∃ blocks, createBlocksHelper df np 1 = Sum.inr blocks ∧
      blocks.map DF.len =
        (List.range np).map (sliceLen df.len (ceilDiv df.len np)) := by
  unfold createBlocksHelper
  rw [if_neg hnp]
  refine ⟨_, rfl, ?_⟩
  rw [List.map_map]
  apply List.map_congr_left
  intro i _
  simp [DF.ilocRows, DF.resetIndex, DF.setRangeColumns, DF.len, DF.shape,
    pySlice, sliceLen]

/-- C2 (amended): with `chunk = ceil(total / N)`, for every non-empty
frame and every `N ≥ 1`: (a) the row partitioner
`_partition_pandas_dataframe` emits partitions whose lengths sum to the
total row count, each at most `chunk`, every one but the last exactly
`chunk`; (b) `create_blocks_helper` along the rows also emits blocks whose
lengths sum to the total, each at most `chunk`, but it always emits exactly
`N` blocks, so a partition shorter than `chunk` may be followed by further
(necessarily empty) partitions — only the last non-empty block may be
shorter than `chunk`; (c) concretely, 10 rows with target count 3 gives
lengths `[4, 4, 2]`. -/
theorem C2_partition_lengths (df : DF α) (N : Nat)
    (hdf : 0 < df.len) (hN : 1 ≤ N) :
    (((partitionPandasDataframe df N).map DF.len).sum = df.len ∧
      (∀ l ∈ (partitionPandasDataframe df N).map DF.len,
        l ≤ ceilDiv df.len N) ∧
      (∀ i, i + 1 < (partitionPandasDataframe df N).length →
        ((partitionPandasDataframe df N).map DF.len).getD i 0 =
          ceilDiv df.len N)) ∧
    (∀ blocks, createBlocksHelper df N 1 = Sum.inr blocks →
      blocks.length = N ∧
      (blocks.map DF.len).sum = df.len ∧
      (∀ l ∈ blocks.map DF.len, l ≤ ceilDiv df.len N) ∧
      (∀ i j, i < j → (blocks.map DF.len).getD j 0 ≠ 0 →
        (blocks.map DF.len).getD i 0 = ceilDiv df.len N)) ∧
    (partitionPandasDataframe df10 3).map DF.len = [4, 4, 2] := by
  have hc : 1 ≤ ceilDiv df.len N := ceilDiv_pos df.len N hdf
  refine ⟨⟨partitionLoop_len_sum df.len df (ceilDiv df.len N),
      partitionLoop_len_le df.len df (ceilDiv df.len N) hc (by omega),
      partitionLoop_len_full df.len df (ceilDiv df.len N)⟩, ?_, by decide⟩
  intro blocks hb
  by_cases hnp : N = 1
  · rw [createBlocksHelper, if_pos hnp] at hb
    exact absurd hb (by simp)
  · obtain ⟨blocks', hb', hlen⟩ := createBlocks_map_len df N hnp
    rw [hb'] at hb
    injection hb with h
    subst h
    have hblen : blocks'.length = N := by
      have := congrArg List.length hlen
      simpa using this
    refine ⟨hblen, ?_, ?_, ?_⟩
    · rw [hlen, sum_sliceLen]
      have := le_mul_ceilDiv df.len N hN
      omega
    · intro l hl
      rw [hlen] at hl
      simp at hl
      obtain ⟨i, _, rfl⟩ := hl
      exact sliceLen_le df.len (ceilDiv df.len N) i
    · intro i j hij hj
      rw [hlen] at hj ⊢
      by_cases hjN : j < N
      · rw [getD_map_range _ _ _ _ hjN] at hj
        rw [getD_map_range _ _ _ _ (by omega)]
        exact sliceLen_full df.len (ceilDiv df.len N) i j hij hj
      · rw [getD_map_range_ge _ _ _ _ (by omega)] at hj
        exact absurd rfl hj

/-- Witness for C2: the 10-row frame with target count 3. -/
theorem C2_partition_lengths_witness :
    (0 : Nat) < df10.len ∧ (1 : Nat) ≤ 3 ∧
    ((((partitionPandasDataframe df10 3).map DF.len).sum = df10.len ∧
      (∀ l ∈ (partitionPandasDataframe df10 3).map DF.len,
        l ≤ ceilDiv df10.len 3) ∧
      (∀ i, i + 1 < (partitionPandasDataframe df10 3).length →
        ((partitionPandasDataframe df10 3).map DF.len).getD i 0 =
          ceilDiv df10.len 3)) ∧
    (∀ blocks, createBlocksHelper df10 3 1 = Sum.inr blocks →
      blocks.length = 3 ∧
      (blocks.map DF.len).sum = df10.len ∧
      (∀ l ∈ blocks.map DF.len, l ≤ ceilDiv df10.len 3) ∧
      (∀ i j, i < j → (blocks.map DF.len).getD j 0 ≠ 0 →
        (blocks.map DF.len).getD i 0 = ceilDiv df10.len 3)) ∧
    (partitionPandasDataframe df10 3).map DF.len = [4, 4, 2]) :=
  ⟨by decide, by decide, C2_partition_lengths df10 3 (by decide) (by decide)⟩

/-- C2 counterexample: a 5-row frame split along the rows by
`create_blocks_helper` with target count 4 (`chunk = 2`) yields block
lengths `[2, 2, 1, 0]`: the block at position 2 is shorter than the chunk
yet is not the last block, refuting "only the last partition may be
shorter than chunk". -/
theorem C2_counterexample :
    df5.len = 5 ∧ (1 : Nat) ≤ 4 ∧ ceilDiv df5.len 4 = 2 ∧
    (createBlocksHelper df5 4 1).isRight = true ∧
    (blocksOf (createBlocksHelper df5 4 1)).map DF.len = [2, 2, 1, 0] ∧
    ((blocksOf (createBlocksHelper df5 4 1)).map DF.len).getD 2 0 <
      ceilDiv df5.len 4 ∧
    2 + 1 < ((blocksOf (createBlocksHelper df5 4 1)).map DF.len).length := by
  decide

/-! ## Association-list facts for the LRU cache -/

section LRULemmas

variable {K V : Type} [DecidableEq K]

theorem assocLookup_append_none (l1 l2 : List (K × V)) (k : K)
    (h : assocLookup l1 k = none) :
    assocLookup (l1 ++ l2) k = assocLookup l2 k := by
  induction l1 with
  | nil => rfl
  | cons p rest ih =>
      rw [assocLookup] at h
      by_cases hp : p.1 = k
      · rw [if_pos hp] at h
        exact absurd h (by simp)
      · rw [if_neg hp] at h
        rw [List.cons_append, assocLookup, if_neg hp]
        exact ih h

theorem assocLookup_append_some (l1 l2 : List (K × V)) (k : K) (v : V)
    (h : assocLookup l1 k = some v) :
    assocLookup (l1 ++ l2) k = some v := by
  induction l1 with
  | nil => exact absurd h (by simp [assocLookup])
  | cons p rest ih =>
      rw [assocLookup] at h
      by_cases hp : p.1 = k
      · rw [if_pos hp] at h
        rw [List.cons_append, assocLookup, if_pos hp]
        exact h
      · rw [if_neg hp] at h
        rw [List.cons_append, assocLookup, if_neg hp]
        exact ih h

theorem assocLookup_eq_none_of_not_mem (l : List (K × V)) (k : K)
    (h : k ∉ l.map Prod.fst) : assocLookup l k = none := by
  induction l with
  | nil => rfl
  | cons p rest ih =>
      simp only [List.map_cons, List.mem_cons, not_or] at h
      rw [assocLookup, if_neg (fun he => h.1 he.symm)]
      exact ih h.2

theorem assocLookup_erase_ne (l : List (K × V)) (k k' : K) (hne : k' ≠ k) :
    assocLookup (assocErase l k) k' = assocLookup l k' := by
  induction l with
  | nil => rfl
  | cons p rest ih =>
      by_cases hp : p.1 = k
      · rw [assocErase, if_pos hp, assocLookup,
          if_neg (fun hk' => hne ((hp.symm.trans hk').symm))]
      · rw [assocErase, if_neg hp]
        simp only [assocLookup]
        by_cases hk' : p.1 = k'
        · rw [if_pos hk', if_pos hk']
        · rw [if_neg hk', if_neg hk']
          exact ih

theorem length_assocErase (l : List (K × V)) (k : K)
    (h : (assocLookup l k).isSome) :
    (assocErase l k).length + 1 = l.length := by
  induction l with
  | nil => simp [assocLookup] at h
  | cons p rest ih =>
      by_cases hp : p.1 = k
      · rw [assocErase, if_pos hp]
        simp
      · rw [assocLookup, if_neg hp] at h
        rw [assocErase, if_neg hp]
        simp only [List.length_cons]
        have := ih h
        omega

theorem assocLookup_erase_self (l : List (K × V)) (k : K)
    (hnd : (l.map Prod.fst).Nodup) :
    assocLookup (assocErase l k) k = none := by
  induction l with
  | nil => rfl
  | cons p rest ih =>
      rw [List.map_cons, List.nodup_cons] at hnd
      by_cases hp : p.1 = k
      · rw [assocErase, if_pos hp]
        exact assocLookup_eq_none_of_not_mem rest k (hp ▸ hnd.1)
      · rw [assocErase, if_neg hp, assocLookup, if_neg hp]
        exact ih hnd.2

theorem assocLookup_map_pair_of_not_mem (vals : K → V) (l : List K) (k : K)
    (h : k ∉ l) :
    assocLookup (l.map fun k' => (k', vals k')) k = none := by
  apply assocLookup_eq_none_of_not_mem
  simpa using h

theorem map_fst_map_pair (vals : K → V) (l : List K) :
    (l.map (fun k => (k, vals k))).map Prod.fst = l := by
  induction l with
  | nil => rfl
  | cons x xs ih => simp [ih]

theorem map_fst_comp_pair (vals : K → V) (l : List K) :
    l.map (Prod.fst ∘ fun k => (k, vals k)) = l := by
  induction l with
  | nil => rfl
  | cons x xs ih => simp [ih]

/-- Folding fresh inserts into a cache with room for all of them appends
them in order, evicting nothing. -/
theorem foldl_put_fresh (vals : K → V) (ks : List K) :
    ∀ (c : LRUCache K V), ks.Nodup →
      (∀ k ∈ ks, assocLookup c.cache k = none) →
      c.cache.length + ks.length ≤ c.capacity →
      (ks.foldl (fun c k => c.put k (vals k)) c) =
        ⟨c.capacity, c.cache ++ ks.map (fun k => (k, vals k))⟩ := by
  induction ks with
  | nil =>
      intro c _ _ _
      simp
  | cons k rest ih =>
      intro c hnd hfresh hlen
      rw [List.nodup_cons] at hnd
      have hput : c.put k (vals k) = ⟨c.capacity, c.cache ++ [(k, vals k)]⟩ := by
        unfold LRUCache.put
        rw [hfresh k (List.mem_cons_self k rest)]
        simp only [Option.isSome_none, Bool.false_eq_true, if_false]
        rw [if_neg (by simp at hlen ⊢; omega)]
      rw [List.foldl_cons, hput,
        ih ⟨c.capacity, c.cache ++ [(k, vals k)]⟩ hnd.2 ?_ ?_]
      · simp
      · intro k' hk'
        have h1 : assocLookup c.cache k' = none :=
          hfresh k' (List.mem_cons_of_mem k hk')
        rw [assocLookup_append_none _ _ _ h1, assocLookup,
          if_neg (fun (he : k = k') => hnd.1 (by rw [he]; exact hk'))]
        rfl
      · simp at hlen ⊢
        omega

end LRULemmas

/-! ## Claim C4: LRU eviction order -/

/-- C4: starting from a fresh `LRUCache` of capacity `C ≥ 1`, inserting
the `C + 1` distinct keys `k1 :: rest ++ [last]` in order evicts exactly
`k1` — the surviving keys are `rest ++ [last]`, in insertion order (first
conjunct). Unless `k1` is re-accessed via `get` after the first `C`
inserts and before the eviction-triggering insert: then (for `C ≥ 2`)
`get` has moved `k1` to the most-recently-used position, and the final
insert instead evicts the now-least-recently-used key `k2 = rest.head`,
with `k1` surviving (second conjunct). -/
theorem C4_lru_evicts_first {K V : Type} [DecidableEq K] (C : Nat)
    (hC : 1 ≤ C) (k1 last : K) (rest : List K) (vals : K → V)
    (hnd : (k1 :: rest ++ [last]).Nodup)
    (hlen : rest.length + 1 = C) :
    (((k1 :: rest ++ [last]).foldl (fun c k => c.put k (vals k))
        (LRUCache.empty K V C)).cache.map Prod.fst) = rest ++ [last] ∧
    (1 ≤ rest.length →
      ∃ v c', ((k1 :: rest).foldl (fun c k => c.put k (vals k))
          (LRUCache.empty K V C)).get k1 = some (v, c') ∧
        ((c'.put last (vals last)).cache.map Prod.fst) =
          rest.drop 1 ++ [k1, last]) := by
  have hnd2 : ((k1 :: rest) ++ [last]).Nodup := hnd
  rw [List.nodup_append] at hnd2
  have hnd1 : (k1 :: rest).Nodup := hnd2.1
  have hlast : last ∉ k1 :: rest := by
    intro hmem
    exact hnd2.2.2 hmem (List.mem_singleton.mpr rfl)
  have hk1rest : k1 ∉ rest := (List.nodup_cons.mp hnd1).1
  have hfold : ((k1 :: rest).foldl (fun c k => c.put k (vals k))
      (LRUCache.empty K V C)) =
      ⟨C, (k1 :: rest).map (fun k => (k, vals k))⟩ := by
    have := foldl_put_fresh vals (k1 :: rest) (LRUCache.empty K V C) hnd1
      (fun k _ => rfl) (by simp [LRUCache.empty]; omega)
    simpa [LRUCache.empty] using this
  have hL : ((k1 :: rest).map (fun k => (k, vals k))).length = C := by
    simpa using hlen
  constructor
  · rw [show k1 :: rest ++ [last] = (k1 :: rest) ++ [last] from rfl,
      List.foldl_append, hfold, List.foldl_cons, List.foldl_nil]
    unfold LRUCache.put
    rw [assocLookup_map_pair_of_not_mem vals _ _ hlast]
    simp only [Option.isSome_none, Bool.false_eq_true, if_false]
    rw [if_pos (le_of_eq hL.symm)]
    simp [map_fst_map_pair, map_fst_comp_pair]
  · intro hrest
    refine ⟨vals k1, ⟨C, rest.map (fun k => (k, vals k)) ++ [(k1, vals k1)]⟩,
      ?_, ?_⟩
    · rw [hfold]
      simp [LRUCache.get, assocLookup, assocErase]
    · have hlast1 : last ∉ rest := fun h => hlast (List.mem_cons_of_mem _ h)
      have hlastk1 : ¬(k1 = last) := by
        intro he
        exact hlast (he ▸ List.mem_cons_self k1 rest)
      unfold LRUCache.put
      rw [assocLookup_append_none _ _ _
          (assocLookup_map_pair_of_not_mem vals _ _ hlast1),
        assocLookup, if_neg hlastk1]
      simp only [assocLookup, Option.isSome_none, Bool.false_eq_true, if_false]
      rw [if_pos (by simp; omega)]
      rw [List.drop_append_of_le_length (by simpa using hrest)]
      simp [List.map_drop, map_fst_map_pair, map_fst_comp_pair]

/-- Witness for C4: capacity 2, keys 0, 1, 2 inserted in order. Without a
`get`, key 0 is evicted and `[1, 2]` survive; with `get 0` interposed
after the first two inserts, key 1 is evicted instead and 0 survives. -/
theorem C4_lru_evicts_first_witness :
    (1 : Nat) ≤ 2 ∧
    ((((0 : Nat) :: [1] ++ [2]).foldl
        (fun (c : LRUCache Nat Nat) k => c.put k (k * 10))
        (LRUCache.empty Nat Nat 2)).cache.map Prod.fst) = [1] ++ [2] ∧
    (1 ≤ ([1] : List Nat).length →
      ∃ v c', (((0 : Nat) :: [1]).foldl
          (fun (c : LRUCache Nat Nat) k => c.put k (k * 10))
          (LRUCache.empty Nat Nat 2)).get 0 = some (v, c') ∧
        ((c'.put 2 (2 * 10)).cache.map Prod.fst) =
          ([1] : List Nat).drop 1 ++ [0, 2]) :=
  ⟨by decide,
    C4_lru_evicts_first 2 (by decide) 0 2 [1] (fun k => k * 10)
      (by decide) (by decide)⟩

/-! ## Claim C10: put on an existing key -/

/-- C10: for every cache state satisfying the dictionary invariants (keys
unique, entry count at most the capacity) and every key already present,
`put(key, value)` updates that key's value and moves it to the
most-recently-used position, but evicts no other entry: every other key's
binding is unchanged, the entry count is unchanged — even at capacity —
and so never exceeds the capacity. -/
theorem C10_put_existing_key {K V : Type} [DecidableEq K]
    (c : LRUCache K V) (k : K) (v w : V)
    (hmem : assocLookup c.cache k = some w)
    (hnd : (c.cache.map Prod.fst).Nodup)
    (hcap : c.cache.length ≤ c.capacity) :
    assocLookup (c.put k v).cache k = some v ∧
    (∀ k', k' ≠ k →
      assocLookup (c.put k v).cache k' = assocLookup c.cache k') ∧
    (c.put k v).cache.length = c.cache.length ∧
    (c.put k v).cache.length ≤ c.capacity ∧
    (c.put k v).cache.getLast? = some (k, v) := by
  have hsome : (assocLookup c.cache k).isSome := by rw [hmem]; rfl
  have hlenE := length_assocErase c.cache k hsome
  have hput : (c.put k v).cache = assocErase c.cache k ++ [(k, v)] := by
    unfold LRUCache.put
    rw [hmem]
    simp only [Option.isSome_some, if_true]
    rw [if_neg (by omega)]
  have hEk : assocLookup (assocErase c.cache k) k = none :=
    assocLookup_erase_self c.cache k hnd
  refine ⟨?_, ?_, ?_, ?_, ?_⟩
  · rw [hput, assocLookup_append_none _ _ _ hEk, assocLookup, if_pos rfl]
  · intro k' hk'
    rw [hput, ← assocLookup_erase_ne c.cache k k' hk']
    cases h' : assocLookup (assocErase c.cache k) k' with
    | none =>
        rw [assocLookup_append_none _ _ _ h', assocLookup,
          if_neg (fun (he : k = k') => hk' he.symm)]
        rfl
    | some u => rw [assocLookup_append_some _ _ _ _ h']
  · rw [hput]
    simp only [List.length_append, List.length_singleton]
    omega
  · rw [hput]
    simp only [List.length_append, List.length_singleton]
    omega
  · rw [hput]
    exact List.getLast?_concat _

/-- Witness for C10: a full capacity-2 cache holding keys 1 and 2;
overwriting key 1 keeps key 2 cached, keeps the size at 2 and moves key 1
to the most-recently-used position. -/
theorem C10_put_existing_key_witness :
    assocLookup (LRUCache.put ⟨2, [(1, 10), (2, 20)]⟩ 1 99).cache 1 =
      some 99 ∧
    (∀ k', k' ≠ 1 →
      assocLookup (LRUCache.put ⟨2, [(1, 10), (2, 20)]⟩ 1 99).cache k' =
        assocLookup ([(1, 10), (2, 20)] : List (Nat × Nat)) k') ∧
    (LRUCache.put ⟨2, [(1, 10), (2, 20)]⟩ 1 99).cache.length =
      ([(1, 10), (2, 20)] : List (Nat × Nat)).length ∧
    (LRUCache.put ⟨2, [(1, 10), (2, 20)]⟩ 1 99).cache.length ≤ 2 ∧
    (LRUCache.put ⟨2, [(1, 10), (2, 20)]⟩ 1 99).cache.getLast? =
      some (1, 99) :=
  C10_put_existing_key ⟨2, [(1, 10), (2, 20)]⟩ 1 99 10
    (by decide) (by decide) (by decide)

/-! ## Claim C5: the memoizing dispatcher -/

/-- C5: for the memoizing wrapper, (i) two `submit` calls on a fresh
wrapper with the same argument tuple return the same handle and dispatch
the underlying remote function exactly once; (ii) two calls with differing
argument tuples dispatch twice, once per tuple, independently; (iii) in
general, while an argument tuple is cached, a `submit` with it returns the
cached handle and issues no new dispatch. -/
theorem C5_memoize_dedup {K V : Type} [DecidableEq K] (f : K → V) (a b : K)
    (hab : a ≠ b) (m : Memo K V) (v : V)
    (hv : assocLookup m.cache.cache a = some v) :
    ((Memo.submit f (Memo.submit f (Memo.init K V) a).2 a).1 =
        (Memo.submit f (Memo.init K V) a).1 ∧
      (Memo.submit f (Memo.submit f (Memo.init K V) a).2 a).2.dispatchLog =
        [a]) ∧
    (Memo.submit f (Memo.submit f (Memo.init K V) a).2 b).2.dispatchLog =
      [a, b] ∧
    ((Memo.submit f m a).1 = v ∧
      (Memo.submit f m a).2.dispatchLog = m.dispatchLog) := by
  have hfirst : Memo.submit f (Memo.init K V) a =
      (f a, ⟨⟨MEMOIZER_CAPACITY, [(a, f a)]⟩, [a]⟩) := by
    simp [Memo.submit, Memo.init, LRUCache.empty, LRUCache.get,
      LRUCache.put, assocLookup, MEMOIZER_CAPACITY]
  refine ⟨?_, ?_, ?_⟩
  · rw [hfirst]
    simp [Memo.submit, LRUCache.get, assocLookup, assocErase]
  · rw [hfirst]
    simp [Memo.submit, LRUCache.get, LRUCache.put, assocLookup, assocErase,
      hab, MEMOIZER_CAPACITY]
  · unfold Memo.submit LRUCache.get
    rw [hv]
    exact ⟨rfl, rfl⟩

/-- Witness for C5: the identity dispatch over naturals, tuples 0 and 1,
and a wrapper state already caching the tuple 0 with handle 5. -/
theorem C5_memoize_dedup_witness :
    (0 : Nat) ≠ 1 ∧
    (((Memo.submit id (Memo.submit id (Memo.init Nat Nat) 0).2 0).1 =
        (Memo.submit id (Memo.init Nat Nat) 0).1 ∧
      (Memo.submit id (Memo.submit id (Memo.init Nat Nat) 0).2 0).2.dispatchLog =
        [0]) ∧
    (Memo.submit id (Memo.submit id (Memo.init Nat Nat) 0).2 1).2.dispatchLog =
      [0, 1] ∧
    ((Memo.submit id (⟨⟨1000, [(0, 5)]⟩, []⟩ : Memo Nat Nat) 0).1 = 5 ∧
      (Memo.submit id (⟨⟨1000, [(0, 5)]⟩, []⟩ : Memo Nat Nat) 0).2.dispatchLog =
        (⟨⟨1000, [(0, 5)]⟩, []⟩ : Memo Nat Nat).dispatchLog)) :=
  ⟨by decide,
    C5_memoize_dedup id 0 1 (by decide) ⟨⟨1000, [(0, 5)]⟩, []⟩ 5 (by decide)⟩

/-! ## Claim C6: the coordinate frame -/

theorem replicate_zip_range (i l : Nat) :
    (List.replicate l i).zip (List.range l) =
      (List.range l).map (fun j => (i, j)) := by
  induction l with
  | zero => rfl
  | succ n ih =>
      rw [List.range_succ, List.replicate_succ', List.zip_append (by simp),
        List.map_append, ih]
      rfl

theorem flatten_length {β : Type u} (L : List (List β)) :
    L.flatten.length = (L.map List.length).sum := by
  induction L with
  | nil => rfl
  | cons x xs ih => simp [List.flatten_cons, ih]

theorem enumFrom_map_snd {β : Type u} (s : Nat) (l : List β) :
    (List.enumFrom s l).map Prod.snd = l := by
  induction l generalizing s with
  | nil => rfl
  | cons x xs ih => simp [List.enumFrom, ih]

theorem filter_pos_sum (l : List Nat) :
    (l.filter (fun x => 0 < x)).sum = l.sum := by
  induction l with
  | nil => rfl
  | cons x xs ih =>
      by_cases hx : 0 < x
      · simp [List.filter_cons, hx, ih]
      · simp [List.filter_cons, hx, ih]
        omega

/-- The flattened coordinate blocks, indexed globally: the entry at
position `(sum of the first i lengths) + j` is `(s + i, j)`. -/
theorem coordBlocks_getD (F : List Nat) (s i j : Nat)
    (hi : i < F.length) (hj : j < F.getD i 0) :
    (((List.enumFrom s F).map
        (fun p => (List.replicate p.2 p.1).zip (List.range p.2))).flatten).getD
      ((F.take i).sum + j) (0, 0) = (s + i, j) := by
  induction F generalizing s i with
  | nil => simp at hi
  | cons l rest ih =>
      rw [show List.enumFrom s (l :: rest) =
        (s, l) :: List.enumFrom (s + 1) rest from rfl]
      simp only [List.map_cons, List.flatten_cons, replicate_zip_range]
      simp only [replicate_zip_range] at ih
      cases i with
      | zero =>
          rw [List.getD_cons_zero] at hj
          simp only [List.take_zero, List.sum_nil, Nat.zero_add]
          rw [List.getD_append _ _ _ _ (by simpa using hj),
            getD_map_range _ _ _ _ hj, Nat.add_zero]
      | succ i =>
          rw [List.getD_cons_succ] at hj
          have hi' : i < rest.length := by simpa using hi
          rw [List.take_succ_cons, List.sum_cons]
          rw [List.getD_append_right _ _ _ _ (by simp; omega)]
          simp only [List.length_map, List.length_range]
          rw [show l + (rest.take i).sum + j - l = (rest.take i).sum + j by
            omega]
          rw [ih (s + 1) i hi' hj]
          rw [show s + 1 + i = s + (i + 1) by omega]

/-- C6: `_build_coord_df` first filters out zero-length partitions; the
resulting coordinate rows are, for the `i`-th remaining partition of
length `l`, the `l` consecutive entries `(i, 0), …, (i, l-1)`, laid out in
partition order (the entry at global position `sum of the first i
remaining lengths + j` is `(i, j)`), the number of rows is the sum of the
lengths, and the rows are associated with the supplied global labels,
which are attached unchanged and in order. -/
theorem C6_build_coordinate_frame (lengths index : List Nat) (i j : Nat)
    (hi : i < (lengths.filter (fun x => 0 < x)).length)
    (hj : j < (lengths.filter (fun x => 0 < x)).getD i 0) :
    (buildCoordDF lengths index).index = index ∧
    ∃ c, (buildCoordDF lengths index).coords = some c ∧
      c.length = lengths.sum ∧
      c.getD (((lengths.filter (fun x => 0 < x)).take i).sum + j) (0, 0) =
        (i, j) := by
  refine ⟨rfl, ?_⟩
  have hpos : 0 < (lengths.filter (fun x => 0 < x)).length :=
    Nat.lt_of_le_of_lt (Nat.zero_le i) hi
  refine ⟨(((lengths.filter (fun x => 0 < x)).enum.map
      (fun p => (List.replicate p.2 p.1).zip (List.range p.2))).flatten),
    ?_, ?_, ?_⟩
  · simp only [buildCoordDF]
    rw [if_pos hpos]
  · rw [flatten_length, List.map_map]
    have hcongr : ∀ p ∈ (lengths.filter (fun x => 0 < x)).enum,
        (List.length ∘ fun p : Nat × Nat =>
          (List.replicate p.2 p.1).zip (List.range p.2)) p = Prod.snd p := by
      intro p _
      simp [List.length_zip]
    rw [List.map_congr_left hcongr,
      show (lengths.filter (fun x => 0 < x)).enum =
        List.enumFrom 0 (lengths.filter (fun x => 0 < x)) from rfl,
      enumFrom_map_snd, filter_pos_sum]
  · have := coordBlocks_getD (lengths.filter (fun x => 0 < x)) 0 i j hi hj
    simpa using this

/-- Witness for C6: lengths `[2, 0, 3]` (the zero partition is filtered
out), labels `[7, 8, 9, 10, 11]`, remaining partition 1, offset 2: the
coordinate row at global position 2 + 2 = 4 is `(1, 2)`. -/
theorem C6_build_coordinate_frame_witness :
    (1 : Nat) < (([2, 0, 3] : List Nat).filter (fun x => 0 < x)).length ∧
    (2 : Nat) < (([2, 0, 3] : List Nat).filter (fun x => 0 < x)).getD 1 0 ∧
    ((buildCoordDF [2, 0, 3] [7, 8, 9, 10, 11]).index = [7, 8, 9, 10, 11] ∧
      ∃ c, (buildCoordDF [2, 0, 3] [7, 8, 9, 10, 11]).coords = some c ∧
        c.length = ([2, 0, 3] : List Nat).sum ∧
        c.getD (((([2, 0, 3] : List Nat).filter
            (fun x => 0 < x)).take 1).sum + 2) (0, 0) = (1, 2)) :=
  ⟨by decide, by decide,
    C6_build_coordinate_frame [2, 0, 3] [7, 8, 9, 10, 11] 1 2
      (by decide) (by decide)⟩

/-! ## Claim C7: _match_partitioning -/

theorem pySlice_drop (l : List α) (n a b : Nat) :
    pySlice (l.drop n) a b = pySlice l (n + a) (n + b) := by
  unfold pySlice
  rw [List.take_drop, List.drop_drop]

theorem pySlice_of_le (l : List α) (a b : Nat) (h : l.length ≤ a) :
    pySlice l a b = [] := by
  unfold pySlice
  apply List.drop_eq_nil_of_le
  have ht : (l.take b).length ≤ l.length := by
    simp [List.length_take]
  omega

/-- The slicing loop of `_match_partitioning`: it emits one output frame
per target length; every output carries the saved column labels, and the
`i`-th output's rows are the source rows from position `sum of the first i
target lengths` for `lengths[i]` rows (clamped to the source, so an
exhausted source gives an empty slice). -/
theorem matchLoop_spec (lengths : List Nat) (columns : List Nat) (cp : DF α)
    (hcols : cp.columns = columns) :
    (matchLoop columns cp lengths).length = lengths.length ∧
    ∀ i, i < lengths.length →
      ((matchLoop columns cp lengths).getD i (emptyWithColumns [])).columns =
        columns ∧
      ((matchLoop columns cp lengths).getD i (emptyWithColumns [])).data =
        pySlice cp.data ((lengths.take i).sum)
          ((lengths.take i).sum + lengths.getD i 0) := by
  induction lengths generalizing cp with
  | nil => exact ⟨rfl, fun i hi => absurd hi (by simp)⟩
  | cons l rest ih =>
      by_cases hz : cp.len = 0
      · have hdata : cp.data = [] := List.length_eq_zero.mp hz
        rw [matchLoop, if_pos hz]
        obtain ⟨ihlen, ihspec⟩ := ih cp hcols
        refine ⟨by simp [ihlen], ?_⟩
        intro i hi
        cases i with
        | zero =>
            simp only [List.getD_cons_zero]
            exact ⟨rfl, by simp [emptyWithColumns, hdata, pySlice]⟩
        | succ i =>
            rw [List.getD_cons_succ]
            have hi' : i < rest.length := by simpa using hi
            obtain ⟨hcol, hdat⟩ := ihspec i hi'
            refine ⟨hcol, ?_⟩
            rw [hdat, hdata]
            simp [pySlice]
      · rw [matchLoop, if_neg hz]
        obtain ⟨ihlen, ihspec⟩ :=
          ih (cp.ilocRows l cp.len) (by simpa [DF.ilocRows] using hcols)
        refine ⟨by simp [ihlen], ?_⟩
        intro i hi
        cases i with
        | zero =>
            simp only [List.getD_cons_zero]
            refine ⟨hcols, ?_⟩
            simp [DF.ilocRows, List.getD_cons_zero]
        | succ i =>
            rw [List.getD_cons_succ]
            have hi' : i < rest.length := by simpa using hi
            obtain ⟨hcol, hdat⟩ := ihspec i hi'
            refine ⟨hcol, ?_⟩
            rw [hdat]
            have hd : (cp.ilocRows l cp.len).data = cp.data.drop l := by
              simp [DF.ilocRows, pySlice, DF.len, List.take_length]
            rw [hd, pySlice_drop, List.take_succ_cons, List.sum_cons,
              List.getD_cons_succ, Nat.add_assoc]

/-- C7: `_match_partitioning` emits one output per target length; the
`i`-th output is the source sliced sequentially — its rows are the source
rows from `sum of the first i target lengths` on, `lengths[i]` of them,
clamped to the source — and every output (sliced or emitted after the
source is exhausted) carries the full original column labels; once the
source is exhausted the remaining outputs are empty. Concretely a 7-row
source with target lengths `[3, 3, 3]` yields partitions of 3, 3 and 1
rows, all carrying the original column labels. -/
theorem C7_match_slices_sequentially (cp : DF α) (lengths : List Nat)
    (index : List Nat) (i : Nat) (hi : i < lengths.length) :
    (matchPartitioning cp lengths index).length = lengths.length ∧
    ((matchPartitioning cp lengths index).getD i
        (emptyWithColumns [])).columns = cp.columns ∧
    ((matchPartitioning cp lengths index).getD i (emptyWithColumns [])).data =
      pySlice cp.data ((lengths.take i).sum)
        ((lengths.take i).sum + lengths.getD i 0) ∧
    (cp.len ≤ (lengths.take i).sum →
      ((matchPartitioning cp lengths index).getD i
        (emptyWithColumns [])).len = 0) ∧
    ((matchPartitioning cp7 [3, 3, 3] (List.range 7)).map DF.len =
        [3, 3, 1] ∧
      (matchPartitioning cp7 [3, 3, 3] (List.range 7)).map DF.columns =
        [[3, 4], [3, 4], [3, 4]]) := by
  obtain ⟨h1, h2⟩ := matchLoop_spec lengths cp.columns (cp.setIndex index) rfl
  obtain ⟨hcol, hdat⟩ := h2 i hi
  refine ⟨h1, hcol, hdat, ?_, by decide⟩
  intro hex
  show ((matchLoop cp.columns (cp.setIndex index) lengths).getD i
    (emptyWithColumns [])).data.length = 0
  rw [hdat, pySlice_of_le (cp.setIndex index).data ((lengths.take i).sum)
    ((lengths.take i).sum + lengths.getD i 0) hex]
  rfl

/-- Witness for C7: the 7-row source with target lengths `[3, 3, 3]`,
looking at the last output (1 row, original columns). -/
theorem C7_match_slices_sequentially_witness :
    (2 : Nat) < ([3, 3, 3] : List Nat).length ∧
    ((matchPartitioning cp7 [3, 3, 3] (List.range 7)).length =
        ([3, 3, 3] : List Nat).length ∧
      ((matchPartitioning cp7 [3, 3, 3] (List.range 7)).getD 2
          (emptyWithColumns [])).columns = cp7.columns ∧
      ((matchPartitioning cp7 [3, 3, 3] (List.range 7)).getD 2
          (emptyWithColumns [])).data =
        pySlice cp7.data ((([3, 3, 3] : List Nat).take 2).sum)
          ((([3, 3, 3] : List Nat).take 2).sum +
            ([3, 3, 3] : List Nat).getD 2 0) ∧
      (cp7.len ≤ (([3, 3, 3] : List Nat).take 2).sum →
        ((matchPartitioning cp7 [3, 3, 3] (List.range 7)).getD 2
          (emptyWithColumns [])).len = 0) ∧
      ((matchPartitioning cp7 [3, 3, 3] (List.range 7)).map DF.len =
          [3, 3, 1] ∧
        (matchPartitioning cp7 [3, 3, 3] (List.range 7)).map DF.columns =
          [[3, 4], [3, 4], [3, 4]])) :=
  ⟨by decide, C7_match_slices_sequentially cp7 [3, 3, 3] (List.range 7) 2
    (by decide)⟩

end RayDF
